import Mathlib

/-!
Verification development for the markdown section-tree extractor
(`build_section_tree_md_only.py`).

The source file has two core functions:

* `parse_markdown_headings(md_text)` — a single forward scan over the lines
  of the input that emits an ordered flat list of `HeadingNode` records,
  suppressing headings inside code fences and tracking `<!--PAGE:n-->`
  markers;
* `build_tree_markdown_levels(headings)` — an explicit-stack loop nesting
  the flat list into a tree under a synthetic `ROOT` node.

The embedding below works over `List Char` for line content (Python `str`,
restricted to the ASCII whitespace characters that Python's `\s` class and
`str.strip()` agree on) and `List (List Char)` for the sequence of input
lines (the source applies `str.splitlines()`, which is part of the I/O
wrapper; the spec's §6 likewise presents the input as a sequence of lines).
The three regexes are embedded as executable matchers whose semantics are
derived from Python's backtracking engine; each matcher's comment records
the derivation.
-/

/-- ASCII whitespace, as matched by Python's regex class `\s` and stripped
by `str.strip()` (on ASCII input): space, tab, newline, carriage return,
vertical tab (11) and form feed (12). -/
def isSpace (c : Char) : Bool :=
  c = ' ' || c = '\t' || c = '\n' || c = '\r' || c = Char.ofNat 11 || c = Char.ofNat 12

/-- Remove trailing ASCII whitespace (the right half of Python `str.strip()`
and the effect of the `\s*$` tail of the heading regex on the title). -/
def stripTrailing : List Char → List Char
  | [] => []
  | c :: cs =>
    match stripTrailing cs with
    | [] => if isSpace c then [] else [c]
    | r => c :: r

/-- Python `str.strip()` on ASCII input: drop leading and trailing whitespace. -/
def stripChars (l : List Char) : List Char :=
  stripTrailing (l.dropWhile isSpace)

/-- `int(s)` on a non-empty string of ASCII digits (the only strings the
page regex can capture in group 1). -/
def digitsToNat (ds : List Char) : Nat :=
  ds.foldl (fun n c => n * 10 + (c.toNat - 48)) 0

/-- Consume an expected literal from the front of the input; `none` when the
input does not start with the literal. Used to embed the literal parts of
the regexes. -/
def dropLit : List Char → List Char → Option (List Char)
  | [], s => some s
  | _ :: _, [] => none
  | c :: cs, d :: ds => if d = c then dropLit cs ds else none

/-- The node class of the source (`@dataclass HeadingNode`): `title`,
`level`, `page` (`Optional[int]`; the captured `\d+` is non-negative, so
`Nat`), and `children`. The same class is used for flat extracted records
(whose `children` is empty) and for tree nodes, exactly as in the source. -/
inductive HeadingNode where
  | mk (title : List Char) (level : Nat) (page : Option Nat) (children : List HeadingNode)

def HeadingNode.title : HeadingNode → List Char
  | .mk t _ _ _ => t

def HeadingNode.level : HeadingNode → Nat
  | .mk _ l _ _ => l

def HeadingNode.page : HeadingNode → Option Nat
  | .mk _ _ p _ => p

def HeadingNode.children : HeadingNode → List HeadingNode
  | .mk _ _ _ c => c

/-- `code_block_rx = re.compile(r'^\s*(`{3,}|~{3,})')`, used through
`code_block_rx.match(line)`: after the greedy `\s*` (no backtracking can
help, since a fence character is not whitespace) the line must continue
with at least three backticks (code 96) or at least three tildes. -/
def code_block_rx (line : List Char) : Bool :=
  match line.dropWhile isSpace with
  | a :: b :: c :: _ =>
      (a.toNat = 96 && b.toNat = 96 && c.toNat = 96) ||
      (a = '~' && b = '~' && c = '~')
  | _ => false

/-- `page_rx = re.compile(r'^\s*<!--PAGE:\s*(\d+)\s*-->\s*$')`, applied with
`page_rx.match(stripped)`; returns the digits captured by group 1. Each
greedy step is deterministic: after `\s*` the next literal/class never
matches whitespace, and after `\d+` neither `\s` nor `-` matches a digit,
so backtracking can never produce a match that the greedy pass misses.
`\s*$` accepts exactly an all-whitespace tail (`$` also matches before a
final newline, but a newline is itself `\s`). -/
def page_rx (s : List Char) : Option (List Char) :=
  match dropLit ("<!--PAGE:".toList) (s.dropWhile isSpace) with
  | none => none
  | some r1 =>
    let r2 := r1.dropWhile isSpace
    let digits := r2.takeWhile Char.isDigit
    if digits.isEmpty then none
    else
      match dropLit ("-->".toList) ((r2.dropWhile Char.isDigit).dropWhile isSpace) with
      | none => none
      | some tail => if (tail.dropWhile isSpace).isEmpty then some digits else none

/-- `(.+?)\s*$` matched against a suffix of the line: some non-empty prefix
of the remaining input consists of non-newline characters (`.` does not
match a newline) and the rest is all whitespace. -/
def matchDot : List Char → Bool
  | [] => false
  | c :: cs => c ≠ '\n' && (cs.all isSpace || matchDot cs)

/-- `\s+(.+?)\s*$` matched against a suffix of the line: a non-empty
whitespace block followed by a `matchDot` match. -/
def matchWsDot : List Char → Bool
  | [] => false
  | c :: cs => isSpace c && (matchDot cs || matchWsDot cs)

/-- `header_rx = re.compile(r'^(#{1,6})\s+(.+?)\s*$')`, applied with
`header_rx.match(line)` (the raw line, not the stripped one); returns the
heading level `len(m.group(1))` and the title `m.group(2).strip()`.

Group 1 is forced to the full leading run of `#`: shortening it leaves a
`#` where `\s+` needs whitespace, so the regex matches exactly when the
leading run has length 1..6 and the text after it matches `\s+(.+?)\s*$`.
For any successful decomposition `rest = w ++ m ++ t` (with `w` non-empty
whitespace, `m` the group-2 text and `t` whitespace), `m.strip()` equals
`rest.strip()`, since `w` and `t` consist of exactly the whitespace that
`strip` removes; so the recorded title is `stripChars` of the text after
the markers. -/
def header_rx (line : List Char) : Option (Nat × List Char) :=
  let k := (line.takeWhile (fun c => c = '#')).length
  if 1 ≤ k ∧ k ≤ 6 then
    if matchWsDot (line.drop k) then some (k, stripChars (line.drop k)) else none
  else none

/-- The local scan state of `parse_markdown_headings`: the `page` variable,
the `in_code_block` flag, and the `headings` accumulator. -/
structure ScanState where
  page : Option Nat
  in_code_block : Bool
  headings : List HeadingNode

/-- Scan state at the top of `parse_markdown_headings`. -/
def initScan : ScanState := ⟨none, false, []⟩

/-- The body of the `for line in md_text.splitlines()` loop, in the source's
priority order: fence toggle, in-fence skip, blank skip, page marker
(`int(m.group(1))` on a `\d+` capture always succeeds, so the
`except ValueError` branch is unreachable in the model), heading, other. -/
def processLine (st : ScanState) (line : List Char) : ScanState :=
  if code_block_rx line then ⟨st.page, !st.in_code_block, st.headings⟩
  else if st.in_code_block then st
  else
    let stripped := stripChars line
    if stripped.isEmpty then st
    else
      match page_rx stripped with
      | some ds => ⟨some (digitsToNat ds), st.in_code_block, st.headings⟩
      | none =>
        match header_rx line with
        | some (lvl, ti) =>
            ⟨st.page, st.in_code_block, st.headings ++ [HeadingNode.mk ti lvl st.page []]⟩
        | none => st

/-- `parse_markdown_headings`, over the already-split list of input lines. -/
def parse_markdown_headings (lines : List (List Char)) : List HeadingNode :=
  (lines.foldl processLine initScan).headings

/-- Append one child to a node's `children` (the effect of
`parent.children.append(h)` once `h`'s own subtree is complete). -/
def addChild (p c : HeadingNode) : HeadingNode :=
  HeadingNode.mk p.title p.level p.page (p.children ++ [c])

/-- Append a list of children to a node's `children`. -/
def addChildren (p : HeadingNode) (cs : List HeadingNode) : HeadingNode :=
  HeadingNode.mk p.title p.level p.page (p.children ++ cs)

/-- State of `build_tree_markdown_levels`: the explicit ancestor `stack`
(top of stack at the head of the list, i.e. Python's `stack[-1]` is
`stack.head`) and the accumulated children of `root`. The Python code
attaches a heading to its parent's `children` the moment it is inserted
and then keeps mutating the shared object; the functional rendering
attaches each node to its parent when it is popped (closed), at which
point its `children` list has reached its final value — the resulting
tree is the same. -/
structure BuildState where
  stack : List HeadingNode
  acc : List HeadingNode

/-- The `while stack and stack[-1].level >= h.level: stack.pop()` loop after
the top frame has been popped: `t` is the just-closed node, to be attached
to the first frame that stays (or to `root`'s children when the stack runs
out). -/
def popPending (l : Nat) (t : HeadingNode) : List HeadingNode → List HeadingNode →
    List HeadingNode × List HeadingNode
  | [], acc => ([], acc ++ [t])
  | f :: fs, acc =>
      if l ≤ f.level then popPending l (addChild f t) fs acc
      else (addChild f t :: fs, acc)

/-- The full pop loop: pop while the stack is non-empty and the top's level
is ≥ `l`; returns the remaining stack and the updated root children. -/
def popStack (l : Nat) (s : List HeadingNode) (acc : List HeadingNode) :
    List HeadingNode × List HeadingNode :=
  match s with
  | [] => ([], acc)
  | f :: fs => if l ≤ f.level then popPending l f fs acc else (f :: fs, acc)

/-- One iteration of the `for h in headings` loop of
`build_tree_markdown_levels`: pop, attach `h` to the new parent
(realized at close time), push `h`. -/
def buildStep (st : BuildState) (h : HeadingNode) : BuildState :=
  let p := popStack h.level st.stack st.acc
  ⟨h :: p.1, p.2⟩

/-- `build_tree_markdown_levels`: run the loop from an empty stack, then
close every still-open frame (every level is ≥ 0) and wrap the collected
children in the synthetic `ROOT` node. The source returns
`root.to_dict()`; the dict conversion is a field-for-field serialization
of this node, out of scope per the spec. -/
def build_tree_markdown_levels (headings : List HeadingNode) : HeadingNode :=
  let st := headings.foldl buildStep ⟨[], []⟩
  HeadingNode.mk ("ROOT".toList) 0 none (popStack 0 st.stack st.acc).2

/-- Modelled from the spec: the declarative description of the Tree
Builder's output (spec §3 invariants and §4.2) — each heading's children
are exactly the headings that appear after it and before the next heading
of level ≤ its own, so a heading becomes a child of the nearest preceding
heading of strictly smaller level, or of the root when none exists. Used
as the comparison point for the refinement claim about
`build_tree_markdown_levels`. -/
def forest : List HeadingNode → List HeadingNode
  | [] => []
  | h :: rest =>
      HeadingNode.mk h.title h.level h.page
          (h.children ++ forest (rest.takeWhile (fun x => h.level < x.level)))
        :: forest (rest.dropWhile (fun x => h.level < x.level))
termination_by hs => hs.length
decreasing_by
  · simp only [List.length_cons]
    exact Nat.lt_succ_of_le (List.takeWhile_sublist _).length_le
  · simp only [List.length_cons]
    exact Nat.lt_succ_of_le (List.dropWhile_sublist _).length_le

/-- Modelled from the spec: the root node produced by the declarative tree
description. -/
def buildSpec (headings : List HeadingNode) : HeadingNode :=
  HeadingNode.mk ("ROOT".toList) 0 none (forest headings)

/-- Every child's level is strictly greater than its parent's level,
recursively (spec §3: "For any non-root node, its level is strictly
greater than its parent's level"). -/
inductive StrictLevels : HeadingNode → Prop where
  | node (t : List Char) (l : Nat) (p : Option Nat) (cs : List HeadingNode)
      (hlt : ∀ c ∈ cs, l < c.level)
      (hrec : ∀ c ∈ cs, StrictLevels c) :
      StrictLevels (HeadingNode.mk t l p cs)

/-! ### Basic lemmas about the data model -/

@[simp]
theorem HeadingNode.title_mk (t : List Char) (l : Nat) (p : Option Nat) (c : List HeadingNode) :
    (HeadingNode.mk t l p c).title = t := rfl

@[simp]
theorem HeadingNode.level_mk (t : List Char) (l : Nat) (p : Option Nat) (c : List HeadingNode) :
    (HeadingNode.mk t l p c).level = l := rfl

@[simp]
theorem HeadingNode.page_mk (t : List Char) (l : Nat) (p : Option Nat) (c : List HeadingNode) :
    (HeadingNode.mk t l p c).page = p := rfl

@[simp]
theorem HeadingNode.children_mk (t : List Char) (l : Nat) (p : Option Nat) (c : List HeadingNode) :
    (HeadingNode.mk t l p c).children = c := rfl

theorem HeadingNode.eta (h : HeadingNode) :
    HeadingNode.mk h.title h.level h.page h.children = h := by
  cases h; rfl

@[simp]
theorem addChildren_nil (f : HeadingNode) : addChildren f [] = f := by
  cases f; simp [addChildren]

theorem addChild_eq_addChildren (f c : HeadingNode) : addChild f c = addChildren f [c] := rfl

@[simp]
theorem level_addChildren (f : HeadingNode) (cs : List HeadingNode) :
    (addChildren f cs).level = f.level := rfl

@[simp]
theorem level_addChild (f c : HeadingNode) : (addChild f c).level = f.level := rfl

theorem addChildren_append (f : HeadingNode) (a b : List HeadingNode) :
    addChildren f (a ++ b) = addChildren (addChildren f a) b := by
  simp [addChildren, List.append_assoc]

/-! ### List/whitespace helper lemmas -/

theorem dropWhile_head_false {α} (p : α → Bool) :
    ∀ (l : List α) (y : α) (ys : List α), l.dropWhile p = y :: ys → p y = false := by
  intro l
  induction l with
  | nil => intro y ys h; simp [List.dropWhile] at h
  | cons a as ih =>
    intro y ys h
    by_cases hp : p a
    · rw [List.dropWhile_cons_of_pos hp] at h; exact ih y ys h
    · rw [List.dropWhile_cons_of_neg hp] at h
      cases h
      simpa using hp

theorem stripTrailing_head :
    ∀ (l : List Char) (c : Char) (r : List Char), stripTrailing l = c :: r → ∃ t, l = c :: t := by
  intro l c r h
  cases l with
  | nil => simp [stripTrailing] at h
  | cons a as =>
    refine ⟨as, ?_⟩
    rw [stripTrailing] at h
    rcases hrec : stripTrailing as with _ | ⟨b, bs⟩
    · rw [hrec] at h
      by_cases hsp : isSpace a
      · simp [hsp] at h
      · simp [hsp] at h
        rw [h.1]
    · rw [hrec] at h
      cases h
      rfl

theorem stripTrailing_nonempty (c : Char) (cs : List Char) (h : isSpace c = false) :
    stripTrailing (c :: cs) ≠ [] := by
  rw [stripTrailing]
  rcases hrec : stripTrailing cs with _ | ⟨b, bs⟩
  · simp [h]
  · simp

theorem stripTrailing_all_space :
    ∀ l : List Char, (∀ c ∈ l, isSpace c = true) → stripTrailing l = [] := by
  intro l
  induction l with
  | nil => intro _; rfl
  | cons a as ih =>
    intro h
    rw [stripTrailing, ih (fun c hc => h c (List.mem_cons_of_mem a hc))]
    simp [h a (List.mem_cons_self a as)]

theorem stripTrailing_append_space (l₁ l₂ : List Char) (h : ∀ c ∈ l₂, isSpace c = true) :
    stripTrailing (l₁ ++ l₂) = stripTrailing l₁ := by
  induction l₁ with
  | nil => simpa using stripTrailing_all_space l₂ h
  | cons a as ih => rw [List.cons_append, stripTrailing, stripTrailing, ih]

theorem stripTrailing_no_space (l : List Char) (h : ∀ c ∈ l, isSpace c = false) :
    stripTrailing l = l := by
  induction l with
  | nil => rfl
  | cons a as ih =>
    rw [stripTrailing, ih (fun c hc => h c (List.mem_cons_of_mem a hc))]
    cases as with
    | nil => simp [h a (List.mem_cons_self a [])]
    | cons b bs => rfl

theorem stripTrailing_getLast :
    ∀ (l : List Char) (c : Char), (stripTrailing l).getLast? = some c → isSpace c = false := by
  intro l
  induction l with
  | nil => intro c h; simp [stripTrailing] at h
  | cons a as ih =>
    intro c h
    rw [stripTrailing] at h
    rcases hrec : stripTrailing as with _ | ⟨b, bs⟩
    · rw [hrec] at h
      by_cases hsp : isSpace a
      · simp [hsp] at h
      · simp [hsp] at h
        rw [← h]; simpa using hsp
    · rw [hrec] at h
      rw [List.getLast?_cons_cons] at h
      exact ih c (hrec ▸ h)

theorem stripChars_head (l : List Char) (c : Char) (r : List Char)
    (h : stripChars l = c :: r) : isSpace c = false := by
  obtain ⟨t, ht⟩ := stripTrailing_head _ _ _ h
  exact dropWhile_head_false isSpace l c t ht

theorem stripChars_head_not_space (l : List Char) (c : Char)
    (h : (stripChars l).head? = some c) : isSpace c = false := by
  rcases he : stripChars l with _ | ⟨d, r⟩
  · rw [he] at h; simp at h
  · rw [he] at h
    simp at h
    exact h ▸ stripChars_head l d r he

theorem stripChars_getLast_not_space (l : List Char) (c : Char)
    (h : (stripChars l).getLast? = some c) : isSpace c = false :=
  stripTrailing_getLast _ c h

theorem stripChars_cons_of_not_space (c : Char) (cs : List Char) (h : isSpace c = false) :
    ∃ r, stripChars (c :: cs) = c :: r := by
  unfold stripChars
  rw [List.dropWhile_cons_of_neg (by simp [h])]
  rcases he : stripTrailing (c :: cs) with _ | ⟨d, r⟩
  · exact absurd he (stripTrailing_nonempty c cs h)
  · obtain ⟨t, ht⟩ := stripTrailing_head _ _ _ he
    have hd : c = d := by injection ht
    exact ⟨r, by rw [hd]⟩

theorem matchDot_of (l : List Char) (hne : l ≠ []) (hn : ∀ c ∈ l, c ≠ '\n') :
    matchDot l = true := by
  induction l with
  | nil => exact absurd rfl hne
  | cons a as ih =>
    rw [matchDot]
    simp only [Bool.and_eq_true, Bool.or_eq_true]
    refine ⟨by simpa using hn a (List.mem_cons_self a as), ?_⟩
    cases as with
    | nil => left; rfl
    | cons b bs =>
      right
      exact ih (by simp) (fun c hc => hn c (List.mem_cons_of_mem a hc))

theorem matchWsDot_append (ws rest : List Char) (hne : ws ≠ [])
    (hws : ∀ c ∈ ws, isSpace c = true) (hrest : matchDot rest = true) :
    matchWsDot (ws ++ rest) = true := by
  induction ws with
  | nil => exact absurd rfl hne
  | cons a as ih =>
    rw [List.cons_append, matchWsDot]
    simp only [Bool.and_eq_true, Bool.or_eq_true]
    refine ⟨hws a (List.mem_cons_self a as), ?_⟩
    cases as with
    | nil => left; simpa using hrest
    | cons b bs =>
      right
      exact ih (by simp) (fun c hc => hws c (List.mem_cons_of_mem a hc))

theorem matchWsDot_single (c : Char) : matchWsDot [c] = false := by
  simp [matchWsDot, matchDot]

/-! ### Per-line shape lemmas for the scanner -/

theorem code_block_rx_false_of_head (c : Char) (cs : List Char)
    (h1 : isSpace c = false) (h2 : c.toNat ≠ 96) (h3 : c ≠ '~') :
    code_block_rx (c :: cs) = false := by
  unfold code_block_rx
  rw [List.dropWhile_cons_of_neg (by simp [h1])]
  cases cs with
  | nil => rfl
  | cons b bs =>
    cases bs with
    | nil => rfl
    | cons d ds => simp [h2, h3]

theorem code_block_rx_false_of_dropWhile (line : List Char) (c : Char) (cs : List Char)
    (h : line.dropWhile isSpace = c :: cs)
    (h2 : c.toNat ≠ 96) (h3 : c ≠ '~') :
    code_block_rx line = false := by
  unfold code_block_rx
  rw [h]
  cases cs with
  | nil => rfl
  | cons b bs =>
    cases bs with
    | nil => rfl
    | cons d ds => simp [h2, h3]

theorem pageLit_eq : "<!--PAGE:".toList = ['<', '!', '-', '-', 'P', 'A', 'G', 'E', ':'] := rfl

theorem page_rx_none_of_head (c : Char) (r : List Char)
    (h1 : isSpace c = false) (h2 : c ≠ '<') :
    page_rx (c :: r) = none := by
  unfold page_rx
  rw [List.dropWhile_cons_of_neg (by simp [h1]), pageLit_eq]
  rw [show dropLit ['<', '!', '-', '-', 'P', 'A', 'G', 'E', ':'] (c :: r) = none from by
    rw [dropLit]; simp [h2]]

theorem header_rx_none_of_long_run (line : List Char)
    (h : 7 ≤ (line.takeWhile (fun c => c = '#')).length) :
    header_rx line = none := by
  unfold header_rx
  rw [if_neg]
  omega

theorem header_rx_none_of_no_ws (k : Nat) (c : Char) (rest : List Char)
    (hc1 : isSpace c = false) (hc2 : c ≠ '#') :
    header_rx (List.replicate k '#' ++ c :: rest) = none := by
  have htw : (List.replicate k '#' ++ c :: rest).takeWhile (fun x => x = '#')
      = List.replicate k '#' := by
    induction k with
    | zero => simpa [List.takeWhile_cons] using hc2
    | succ n ih => simpa [List.replicate_succ, List.takeWhile_cons] using ih
  unfold header_rx
  rw [htw, List.length_replicate]
  by_cases hk : 1 ≤ k ∧ k ≤ 6
  · rw [if_pos hk]
    rw [show (List.replicate k '#' ++ c :: rest).drop k = c :: rest from by
      have := List.drop_left (List.replicate k '#') (c :: rest)
      rwa [List.length_replicate] at this]
    rw [if_neg]
    rw [matchWsDot]
    simp [hc1]
  · rw [if_neg hk]

theorem processLine_skip (st : ScanState) (line : List Char)
    (h1 : code_block_rx line = false)
    (h2 : page_rx (stripChars line) = none)
    (h3 : header_rx line = none) :
    processLine st line = st := by
  unfold processLine
  rw [if_neg (by simp [h1])]
  by_cases hc : st.in_code_block
  · rw [if_pos hc]
  · rw [if_neg hc]
    by_cases hs : (stripChars line).isEmpty
    · rw [if_pos hs]
    · rw [if_neg hs, h2, h3]

/-- Case analysis on one scanner step: a line either leaves `page` and
`headings` unchanged (possibly toggling the fence flag), or updates `page`
from a page-marker match, or appends exactly the heading record built from
a `header_rx` match. -/
theorem processLine_cases (st : ScanState) (line : List Char) :
    (∃ b, processLine st line = ⟨st.page, b, st.headings⟩) ∨
    (∃ ds, page_rx (stripChars line) = some ds ∧
      processLine st line = ⟨some (digitsToNat ds), st.in_code_block, st.headings⟩) ∨
    (∃ lvl ti, header_rx line = some (lvl, ti) ∧
      processLine st line =
        ⟨st.page, st.in_code_block, st.headings ++ [HeadingNode.mk ti lvl st.page []]⟩) := by
  unfold processLine
  by_cases h1 : code_block_rx line
  · exact Or.inl ⟨!st.in_code_block, by rw [if_pos h1]⟩
  · rw [if_neg h1]
    by_cases h2 : st.in_code_block
    · exact Or.inl ⟨st.in_code_block, by rw [if_pos h2]⟩
    · rw [if_neg h2]
      by_cases h3 : (stripChars line).isEmpty
      · exact Or.inl ⟨st.in_code_block, by rw [if_pos h3]⟩
      · rw [if_neg h3]
        rcases hp : page_rx (stripChars line) with _ | ds
        · rcases hh : header_rx line with _ | ⟨lvl, ti⟩
          · exact Or.inl ⟨st.in_code_block, rfl⟩
          · exact Or.inr (Or.inr ⟨lvl, ti, rfl, rfl⟩)
        · exact Or.inr (Or.inl ⟨ds, rfl, rfl⟩)

/-- Generic invariant preservation over the scanner's fold. -/
theorem foldl_scan_invariant (P : ScanState → Prop) (Q : List Char → Prop)
    (hstep : ∀ st l, Q l → P st → P (processLine st l)) :
    ∀ (lines : List (List Char)) (st : ScanState),
      (∀ l ∈ lines, Q l) → P st → P (lines.foldl processLine st) := by
  intro lines
  induction lines with
  | nil => intro st _ hP; exact hP
  | cons a as ih =>
    intro st hQ hP
    exact ih (processLine st a)
      (fun l hl => hQ l (List.mem_cons_of_mem a hl))
      (hstep st a (hQ a (List.mem_cons_self a as)) hP)

/-- Headings already recorded are never removed or reordered. -/
theorem foldl_headings_mono :
    ∀ (lines : List (List Char)) (st : ScanState),
      ∃ t, (lines.foldl processLine st).headings = st.headings ++ t := by
  intro lines
  induction lines with
  | nil => intro st; exact ⟨[], by simp⟩
  | cons a as ih =>
    intro st
    obtain ⟨t, ht⟩ := ih (processLine st a)
    rcases processLine_cases st a with ⟨b, hb⟩ | ⟨ds, _, hds⟩ | ⟨lvl, ti, _, hh⟩
    · exact ⟨t, by rw [List.foldl_cons, ht, hb]⟩
    · exact ⟨t, by rw [List.foldl_cons, ht, hds]⟩
    · exact ⟨[HeadingNode.mk ti lvl st.page []] ++ t,
        by rw [List.foldl_cons, ht, hh, List.append_assoc]⟩

/-- Lines inside an open fence are skipped entirely (as long as they are not
themselves fence delimiters). -/
theorem foldl_fence_skip :
    ∀ (mid : List (List Char)) (st : ScanState), st.in_code_block = true →
      (∀ l ∈ mid, code_block_rx l = false) → mid.foldl processLine st = st := by
  intro mid
  induction mid with
  | nil => intro st _ _; rfl
  | cons a as ih =>
    intro st hin hmid
    have hstep : processLine st a = st := by
      unfold processLine
      rw [if_neg (by simp [hmid a (List.mem_cons_self a as)]), if_pos hin]
    rw [List.foldl_cons, hstep]
    exact ih st hin (fun l hl => hmid l (List.mem_cons_of_mem a hl))

theorem exists_cons_of_run (line : List Char)
    (h : 1 ≤ (line.takeWhile (fun c => c = '#')).length) : ∃ cs, line = '#' :: cs := by
  cases line with
  | nil => simp at h
  | cons a as =>
    rw [List.takeWhile_cons] at h
    by_cases ha : a = '#'
    · exact ⟨as, by rw [ha]⟩
    · simp [ha] at h

theorem takeWhile_hash_prepend (k : Nat) (tail : List Char)
    (htw : tail.takeWhile (fun c => c = '#') = []) :
    (List.replicate k '#' ++ tail).takeWhile (fun c => c = '#') = List.replicate k '#' := by
  induction k with
  | zero => simpa using htw
  | succ n ih => simpa [List.replicate_succ, List.takeWhile_cons] using ih

theorem drop_replicate (k : Nat) (tail : List Char) :
    (List.replicate k '#' ++ tail).drop k = tail := by
  have := List.drop_left (List.replicate k '#') tail
  rwa [List.length_replicate] at this

/-- A successful heading match: the level is the length of the full leading
marker run, it lies in `[1,6]`, and the title is the stripped post-marker
text. -/
theorem header_rx_some_facts (line : List Char) (lvl : Nat) (ti : List Char)
    (h : header_rx line = some (lvl, ti)) :
    lvl = (line.takeWhile (fun c => c = '#')).length ∧ 1 ≤ lvl ∧ lvl ≤ 6 ∧
      ti = stripChars (line.drop lvl) ∧ matchWsDot (line.drop lvl) = true := by
  unfold header_rx at h
  by_cases h16 : 1 ≤ (line.takeWhile (fun c => c = '#')).length ∧
      (line.takeWhile (fun c => c = '#')).length ≤ 6
  · rw [if_pos h16] at h
    by_cases hm : matchWsDot (line.drop (line.takeWhile (fun c => c = '#')).length)
    · rw [if_pos hm] at h
      simp only [Option.some.injEq, Prod.mk.injEq] at h
      obtain ⟨h1, h2⟩ := h
      subst h1
      exact ⟨rfl, h16.1, h16.2, h2.symm, hm⟩
    · rw [if_neg hm] at h
      cases h
  · rw [if_neg h16] at h
    cases h

theorem header_rx_pos (k : Nat) (tail : List Char) (h1 : 1 ≤ k) (h2 : k ≤ 6)
    (htw : tail.takeWhile (fun c => c = '#') = []) (hmw : matchWsDot tail = true) :
    header_rx (List.replicate k '#' ++ tail) = some (k, stripChars tail) := by
  unfold header_rx
  rw [takeWhile_hash_prepend k tail htw, List.length_replicate,
    if_pos ⟨h1, h2⟩, drop_replicate, if_pos hmw]

theorem header_rx_none_of_head_ne (a : Char) (as : List Char) (ha : a ≠ '#') :
    header_rx (a :: as) = none := by
  unfold header_rx
  simp [List.takeWhile_cons, ha]

theorem header_rx_none_of_strip_head (line : List Char) (c : Char) (r : List Char)
    (h : stripChars line = c :: r) (hc : c ≠ '#') : header_rx line = none := by
  cases line with
  | nil => simp [stripChars, stripTrailing] at h
  | cons a as =>
    by_cases ha : isSpace a
    · refine header_rx_none_of_head_ne a as (fun he => ?_)
      rw [he] at ha
      simp [isSpace] at ha
    · have hstr : stripChars (a :: as) = stripTrailing (a :: as) := by
        unfold stripChars
        rw [List.dropWhile_cons_of_neg (by simp [ha])]
      rw [hstr] at h
      obtain ⟨t, ht⟩ := stripTrailing_head _ _ _ h
      have : a = c := by injection ht
      exact header_rx_none_of_head_ne a as (this ▸ hc)

theorem dropLit_self : ∀ (pat rest : List Char), dropLit pat (pat ++ rest) = some rest := by
  intro pat
  induction pat with
  | nil => intro rest; rfl
  | cons c cs ih => intro rest; rw [List.cons_append, dropLit, if_pos rfl]; exact ih rest

theorem dropWhile_append_of_all {α} (p : α → Bool) :
    ∀ (l₁ l₂ : List α), (∀ c ∈ l₁, p c = true) → (l₁ ++ l₂).dropWhile p = l₂.dropWhile p := by
  intro l₁
  induction l₁ with
  | nil => intro l₂ _; rfl
  | cons a as ih =>
    intro l₂ h
    rw [List.cons_append, List.dropWhile_cons_of_pos (h a (List.mem_cons_self a as))]
    exact ih l₂ (fun c hc => h c (List.mem_cons_of_mem a hc))

theorem page_rx_none_of_sign (sign : Char) (rest : List Char)
    (h1 : isSpace sign = false) (h2 : sign.isDigit = false) :
    page_rx ("<!--PAGE:".toList ++ sign :: rest) = none := by
  unfold page_rx
  have hd : ("<!--PAGE:".toList ++ sign :: rest).dropWhile isSpace
      = "<!--PAGE:".toList ++ sign :: rest := by
    simp only [pageLit_eq, List.cons_append]
    rw [List.dropWhile_cons_of_neg (by decide)]
  rw [hd, dropLit_self]
  have ht : (sign :: rest).takeWhile Char.isDigit = [] := by
    rw [List.takeWhile_cons]
    simp [h2]
  simp [ht, h1]

theorem processLine_heading (st : ScanState) (line : List Char) (lvl : Nat) (ti : List Char)
    (h1 : code_block_rx line = false)
    (hne : (stripChars line).isEmpty = false)
    (h2 : page_rx (stripChars line) = none)
    (h3 : header_rx line = some (lvl, ti))
    (hc : st.in_code_block = false) :
    processLine st line = ⟨st.page, false, st.headings ++ [HeadingNode.mk ti lvl st.page []]⟩ := by
  unfold processLine
  rw [if_neg (by simp [h1]), if_neg (by simp [hc]), if_neg (by simp [hne]), h2, h3, hc]

/-! ### Claim C3 -/

/-- C3, counterexample: the line consisting of one marker character followed
by exactly one whitespace character is NOT recorded as a heading — the
extractor returns no heading record at all for the input `"# "`, because
`\s+` consumes the only whitespace character and `(.+?)` then has nothing
left to match. This refutes the claim for lines whose trailing whitespace
has length 1. -/
theorem c3_counterexample : parse_markdown_headings [['#', ' ']] = [] := rfl

/-- C3, amended: for an input line of 1–6 marker characters followed only by
whitespace, where the whitespace run has length at least TWO, the extractor
records a heading for that line whose title is the empty string (and raises
no error — the model is total); with a whitespace run of length exactly one
(or zero) no heading is recorded, per the counterexample. -/
theorem c3_empty_title (st : ScanState) (k : Nat) (ws : List Char)
    (hc : st.in_code_block = false) (h1 : 1 ≤ k) (h2 : k ≤ 6)
    (hlen : 2 ≤ ws.length) (hws : ∀ c ∈ ws, c = ' ' ∨ c = '\t') :
    processLine st (List.replicate k '#' ++ ws)
      = ⟨st.page, false, st.headings ++ [HeadingNode.mk [] k st.page []]⟩ := by
  obtain ⟨k', rfl⟩ : ∃ k', k = k' + 1 := ⟨k - 1, by omega⟩
  have hws' : ∀ c ∈ ws, isSpace c = true := by
    intro c hcm; rcases hws c hcm with rfl | rfl <;> rfl
  have hwsn : ∀ c ∈ ws, ¬(c = '#') := by
    intro c hcm; rcases hws c hcm with rfl | rfl <;> decide
  have hwsnl : ∀ c ∈ ws, c ≠ '\n' := by
    intro c hcm; rcases hws c hcm with rfl | rfl <;> decide
  obtain ⟨w1, wtl, rfl⟩ : ∃ w1 wtl, ws = w1 :: wtl := by
    cases ws with
    | nil => simp at hlen
    | cons a as => exact ⟨a, as, rfl⟩
  obtain ⟨w2, wtl2, rfl⟩ : ∃ w2 wtl2, wtl = w2 :: wtl2 := by
    cases wtl with
    | nil => simp at hlen
    | cons a as => exact ⟨a, as, rfl⟩
  have hline : List.replicate (k' + 1) '#' ++ (w1 :: w2 :: wtl2)
      = '#' :: (List.replicate k' '#' ++ (w1 :: w2 :: wtl2)) := by
    rw [List.replicate_succ]; rfl
  have hfence : code_block_rx (List.replicate (k' + 1) '#' ++ (w1 :: w2 :: wtl2)) = false := by
    rw [hline]
    exact code_block_rx_false_of_head '#' _ (by decide) (by decide) (by decide)
  have hstrip : stripChars (List.replicate (k' + 1) '#' ++ (w1 :: w2 :: wtl2))
      = List.replicate (k' + 1) '#' := by
    unfold stripChars
    rw [hline, List.dropWhile_cons_of_neg (by decide), ← hline,
      stripTrailing_append_space _ _ hws']
    exact stripTrailing_no_space _ (fun c hcm => by rw [List.eq_of_mem_replicate hcm]; decide)
  have hsw : stripChars (w1 :: w2 :: wtl2) = [] := by
    unfold stripChars
    have := dropWhile_append_of_all isSpace (w1 :: w2 :: wtl2) [] hws'
    rw [List.append_nil] at this
    rw [this]
    rfl
  have hhead : header_rx (List.replicate (k' + 1) '#' ++ (w1 :: w2 :: wtl2))
      = some (k' + 1, stripChars (w1 :: w2 :: wtl2)) := by
    refine header_rx_pos _ _ (by omega) h2 ?_ ?_
    · rw [List.takeWhile_cons]
      simp [hwsn w1 (List.mem_cons_self w1 _)]
    · have : w1 :: w2 :: wtl2 = [w1] ++ (w2 :: wtl2) := rfl
      rw [this]
      refine matchWsDot_append [w1] (w2 :: wtl2) (by simp) ?_ ?_
      · intro c hcm
        rcases List.mem_singleton.mp hcm with rfl
        exact hws' _ (List.mem_cons_self _ _)
      · exact matchDot_of _ (by simp) (fun c hcm => hwsnl c (List.mem_cons_of_mem w1 hcm))
  rw [hsw] at hhead
  refine processLine_heading st _ (k' + 1) [] hfence ?_ ?_ hhead hc
  · rw [hstrip, List.replicate_succ]
    rfl
  · rw [hstrip, List.replicate_succ]
    exact page_rx_none_of_head '#' _ (by decide) (by decide)

/-- C3, witness for the amended theorem at marker count 1 and two spaces. -/
theorem c3_witness :
    initScan.in_code_block = false ∧ 1 ≤ 1 ∧ 1 ≤ 6 ∧ 2 ≤ ([' ', ' '] : List Char).length ∧
    processLine initScan (List.replicate 1 '#' ++ [' ', ' '])
      = ⟨none, false, [HeadingNode.mk [] 1 none []]⟩ :=
  ⟨rfl, by decide, by decide, by decide,
    c3_empty_title initScan 1 [' ', ' '] rfl (by decide) (by decide) (by decide)
      (by decide)⟩

/-! ### Claim C7 -/

/-- C7: a line whose content is the malformed page marker `<!--PAGE:abc-->`
is skipped entirely — the scan state is unchanged (so `current_page` keeps
its previous value and no heading record is produced), and within any larger
input the line is as if absent. The embedding is total, so no exception can
be raised; in the source the line simply fails `page_rx` (its "integer"
part has no digits) and then fails `header_rx`, falling through to the
ignored-line case without ever reaching the `int()` call. -/
theorem c7_malformed_page_marker :
    (∀ st : ScanState, processLine st ("<!--PAGE:abc-->".toList) = st) ∧
    (∀ pre post : List (List Char),
      parse_markdown_headings (pre ++ "<!--PAGE:abc-->".toList :: post)
        = parse_markdown_headings (pre ++ post)) := by
  have hskip : ∀ st : ScanState, processLine st ("<!--PAGE:abc-->".toList) = st := by
    intro st
    exact processLine_skip st _ rfl rfl rfl
  refine ⟨hskip, ?_⟩
  intro pre post
  unfold parse_markdown_headings
  rw [List.foldl_append, List.foldl_append, List.foldl_cons,
    hskip (pre.foldl processLine initScan)]

/-! ### Claim C9 -/

/-- C9: a line that strips to `<!--PAGE:` followed by a signed integer
(`-` or `+` before the digits) followed by `-->` does not match the
page-marker pattern (whose integer part is the unsigned `\d+`), so the
scan state is unchanged: `page` keeps its value and no heading is
recorded. -/
theorem c9_signed_page_marker (st : ScanState) (line : List Char) (sign : Char)
    (ds : List Char) (hsign : sign = '-' ∨ sign = '+') (_hne : ds ≠ [])
    (_hds : ∀ c ∈ ds, c.isDigit = true)
    (hstrip : stripChars line = "<!--PAGE:".toList ++ sign :: (ds ++ "-->".toList)) :
    processLine st line = st := by
  have hsp : isSpace sign = false := by rcases hsign with rfl | rfl <;> rfl
  have hdg : sign.isDigit = false := by rcases hsign with rfl | rfl <;> rfl
  have hstrip' : stripChars line
      = '<' :: ("!--PAGE:".toList ++ sign :: (ds ++ "-->".toList)) := by
    rw [hstrip]; rfl
  obtain ⟨t, ht⟩ := stripTrailing_head _ _ _ hstrip'
  refine processLine_skip st line ?_ ?_ ?_
  · exact code_block_rx_false_of_dropWhile line '<' t ht (by decide) (by decide)
  · rw [hstrip]
    exact page_rx_none_of_sign sign _ hsp hdg
  · exact header_rx_none_of_strip_head line '<' _ hstrip' (by decide)

/-- C9, witness at the concrete line `<!--PAGE:-3-->`. -/
theorem c9_witness :
    (('-' : Char) = '-' ∨ ('-' : Char) = '+') ∧ (['3'] : List Char) ≠ [] ∧
    stripChars ("<!--PAGE:-3-->".toList)
      = "<!--PAGE:".toList ++ '-' :: (['3'] ++ "-->".toList) ∧
    processLine initScan ("<!--PAGE:-3-->".toList) = initScan :=
  ⟨Or.inl rfl, by decide, by decide,
    c9_signed_page_marker initScan ("<!--PAGE:-3-->".toList) '-' ['3']
      (Or.inl rfl) (by decide) (by decide) (by decide)⟩

/-! ### Claim C8 -/

/-- C8: (i) a line starting with more than six marker characters is not
recorded (the whole scan state is unchanged); (ii) a line whose markers are
followed by a non-whitespace character is not recorded; (iii) a successful
heading match has level equal to the full marker-run length, within [1,6];
(iv) consequently every recorded heading's level lies in [1,6]. -/
theorem c8_header_recognition :
    (∀ (st : ScanState) (line : List Char),
      7 ≤ (line.takeWhile (fun c => c = '#')).length → processLine st line = st) ∧
    (∀ (st : ScanState) (k : Nat) (c : Char) (rest : List Char),
      1 ≤ k → isSpace c = false → c ≠ '#' →
      processLine st (List.replicate k '#' ++ c :: rest) = st) ∧
    (∀ (line : List Char) (lvl : Nat) (ti : List Char),
      header_rx line = some (lvl, ti) →
      lvl = (line.takeWhile (fun c => c = '#')).length ∧ 1 ≤ lvl ∧ lvl ≤ 6) ∧
    (∀ (lines : List (List Char)) (h : HeadingNode),
      h ∈ parse_markdown_headings lines → 1 ≤ h.level ∧ h.level ≤ 6) := by
  refine ⟨?_, ?_, ?_, ?_⟩
  · intro st line hrun
    obtain ⟨cs, rfl⟩ := exists_cons_of_run line (by omega)
    obtain ⟨r, hr⟩ := stripChars_cons_of_not_space '#' cs (by decide)
    refine processLine_skip st _ ?_ ?_ ?_
    · exact code_block_rx_false_of_head '#' cs (by decide) (by decide) (by decide)
    · rw [hr]
      exact page_rx_none_of_head '#' r (by decide) (by decide)
    · exact header_rx_none_of_long_run _ hrun
  · intro st k c rest hk hc1 hc2
    obtain ⟨k', rfl⟩ : ∃ k', k = k' + 1 := ⟨k - 1, by omega⟩
    have hline : List.replicate (k' + 1) '#' ++ c :: rest
        = '#' :: (List.replicate k' '#' ++ c :: rest) := by
      rw [List.replicate_succ]; rfl
    obtain ⟨r, hr⟩ := stripChars_cons_of_not_space '#' (List.replicate k' '#' ++ c :: rest)
      (by decide)
    refine processLine_skip st _ ?_ ?_ ?_
    · rw [hline]
      exact code_block_rx_false_of_head '#' _ (by decide) (by decide) (by decide)
    · rw [hline, hr]
      exact page_rx_none_of_head '#' r (by decide) (by decide)
    · exact header_rx_none_of_no_ws (k' + 1) c rest hc1 hc2
  · intro line lvl ti h
    obtain ⟨h1, h2, h3, _, _⟩ := header_rx_some_facts line lvl ti h
    exact ⟨h1, h2, h3⟩
  · intro lines h hmem
    have := foldl_scan_invariant
      (fun st => ∀ x ∈ st.headings, 1 ≤ x.level ∧ x.level ≤ 6) (fun _ => True)
      (fun st l _ hP => by
        rcases processLine_cases st l with ⟨b, hb⟩ | ⟨ds, _, hds⟩ | ⟨lvl, ti, hh, hres⟩
        · rw [hb]; exact hP
        · rw [hds]; exact hP
        · rw [hres]
          intro x hx
          rcases List.mem_append.mp hx with hx | hx
          · exact hP x hx
          · rcases List.mem_singleton.mp hx with rfl
            obtain ⟨_, hb1, hb2, _, _⟩ := header_rx_some_facts l lvl ti hh
            simpa using ⟨hb1, hb2⟩)
      lines initScan (fun _ _ => trivial) (by intro x hx; simp [initScan] at hx)
    exact this h hmem

/-- C8, witness: a seven-marker line and a marker-no-whitespace line are
skipped; the heading match on `"# x"` has level 1 = run length in [1,6];
the single heading extracted from `"# A"` has level in [1,6]. -/
theorem c8_witness :
    processLine initScan ("####### x".toList) = initScan ∧
    processLine initScan (List.replicate 1 '#' ++ 'x' :: []) = initScan ∧
    (1 = (("# x".toList).takeWhile (fun c => c = '#')).length ∧ 1 ≤ 1 ∧ 1 ≤ 6) ∧
    (1 ≤ (HeadingNode.mk ['A'] 1 none []).level ∧ (HeadingNode.mk ['A'] 1 none []).level ≤ 6) :=
  ⟨c8_header_recognition.1 initScan _ (by decide),
   c8_header_recognition.2.1 initScan 1 'x' [] (by decide) (by decide) (by decide),
   c8_header_recognition.2.2.1 ("# x".toList) 1 ['x'] rfl,
   c8_header_recognition.2.2.2 [['#', ' ', 'A']] _ (List.mem_singleton.mpr rfl)⟩

/-! ### Claim C10 -/

/-- C10: heading titles are trimmed on both ends. (i) A successful heading
match records `stripChars` of the post-marker text, which has no leading
and no trailing whitespace character; (ii) for a line of the explicit form
markers ++ separating-whitespace ++ text, the recorded title is the text
stripped on both ends; (iii) every heading record the extractor returns has
a title with no leading or trailing whitespace; (iv) the concrete line of
one marker, four spaces and `hello` yields exactly the title `hello`. -/
theorem c10_title_trimmed :
    (∀ (line : List Char) (lvl : Nat) (ti : List Char),
      header_rx line = some (lvl, ti) →
      ti = stripChars (line.drop lvl) ∧
      (∀ c, ti.head? = some c → isSpace c = false) ∧
      (∀ c, ti.getLast? = some c → isSpace c = false)) ∧
    (∀ (k : Nat) (ws : List Char) (r : Char) (rs : List Char),
      1 ≤ k → k ≤ 6 → ws ≠ [] → (∀ c ∈ ws, c = ' ' ∨ c = '\t') →
      isSpace r = false → (∀ c ∈ r :: rs, c ≠ '\n') →
      header_rx (List.replicate k '#' ++ (ws ++ r :: rs)) = some (k, stripChars (r :: rs))) ∧
    (∀ (lines : List (List Char)) (h : HeadingNode),
      h ∈ parse_markdown_headings lines →
      (∀ c, h.title.head? = some c → isSpace c = false) ∧
      (∀ c, h.title.getLast? = some c → isSpace c = false)) ∧
    parse_markdown_headings [['#', ' ', ' ', ' ', ' ', 'h', 'e', 'l', 'l', 'o']]
      = [HeadingNode.mk ['h', 'e', 'l', 'l', 'o'] 1 none []] := by
  refine ⟨?_, ?_, ?_, rfl⟩
  · intro line lvl ti h
    obtain ⟨_, _, _, hti, _⟩ := header_rx_some_facts line lvl ti h
    subst hti
    exact ⟨rfl, fun c hc => stripChars_head_not_space _ c hc,
      fun c hc => stripChars_getLast_not_space _ c hc⟩
  · intro k ws r rs h1 h2 hne hws hr hnl
    have hws' : ∀ c ∈ ws, isSpace c = true := by
      intro c hcm; rcases hws c hcm with rfl | rfl <;> rfl
    obtain ⟨w1, wtl, rfl⟩ : ∃ w1 wtl, ws = w1 :: wtl := by
      cases ws with
      | nil => exact absurd rfl hne
      | cons a as => exact ⟨a, as, rfl⟩
    have hstrip : stripChars ((w1 :: wtl) ++ r :: rs) = stripChars (r :: rs) := by
      unfold stripChars
      rw [dropWhile_append_of_all isSpace (w1 :: wtl) (r :: rs) hws']
    rw [← hstrip]
    refine header_rx_pos k _ h1 h2 ?_ ?_
    · rw [List.cons_append, List.takeWhile_cons]
      have : ¬ (w1 = '#') := by
        rcases hws w1 (List.mem_cons_self w1 wtl) with rfl | rfl <;> decide
      simp [this]
    · exact matchWsDot_append (w1 :: wtl) (r :: rs) (by simp) hws'
        (matchDot_of (r :: rs) (by simp) hnl)
  · intro lines h hmem
    have := foldl_scan_invariant
      (fun st => ∀ x ∈ st.headings,
        (∀ c, x.title.head? = some c → isSpace c = false) ∧
        (∀ c, x.title.getLast? = some c → isSpace c = false))
      (fun _ => True)
      (fun st l _ hP => by
        rcases processLine_cases st l with ⟨b, hb⟩ | ⟨ds, _, hds⟩ | ⟨lvl, ti, hh, hres⟩
        · rw [hb]; exact hP
        · rw [hds]; exact hP
        · rw [hres]
          intro x hx
          rcases List.mem_append.mp hx with hx | hx
          · exact hP x hx
          · rcases List.mem_singleton.mp hx with rfl
            obtain ⟨_, _, _, hti, _⟩ := header_rx_some_facts l lvl ti hh
            subst hti
            exact ⟨fun c hc => stripChars_head_not_space _ c (by simpa using hc),
              fun c hc => stripChars_getLast_not_space _ c (by simpa using hc)⟩)
      lines initScan (fun _ _ => trivial) (by intro x hx; simp [initScan] at hx)
    exact this h hmem

/-- C10, witness: conjunct (ii) at one marker, one space, text `h`. -/
theorem c10_witness :
    header_rx (List.replicate 1 '#' ++ ([' '] ++ 'h' :: []))
      = some (1, stripChars ('h' :: [])) :=
  c10_title_trimmed.2.1 1 [' '] 'h' [] (by decide) (by decide) (by decide)
    (by decide) (by decide) (by decide)

/-! ### Claim C5 -/

/-- C5: fence suppression. From any un-fenced state, a fence-delimiter line,
then any lines that are not fence delimiters themselves (in particular,
heading-pattern lines), then a second fence-delimiter line, leave the
recorded headings and the page exactly as they were and return to the
un-fenced state — so no heading between the two delimiters is ever emitted,
and any continuation `rest` is processed as if the fenced block were absent.
The two delimiter lines are constrained only by `code_block_rx`, which
accepts backtick and tilde fences alike (they toggle the same flag), so a
backtick fence may be closed by a tilde fence. -/
theorem c5_fence_suppression (f1 f2 : List Char) (mid rest : List (List Char))
    (st : ScanState)
    (h1 : code_block_rx f1 = true) (h2 : code_block_rx f2 = true)
    (hmid : ∀ l ∈ mid, code_block_rx l = false) (hc : st.in_code_block = false) :
    ((f1 :: (mid ++ [f2])) ++ rest).foldl processLine st
      = rest.foldl processLine ⟨st.page, false, st.headings⟩ := by
  have hf1 : processLine st f1 = ⟨st.page, true, st.headings⟩ := by
    unfold processLine
    rw [if_pos h1, hc]
    rfl
  have hmidfold : mid.foldl processLine (⟨st.page, true, st.headings⟩ : ScanState)
      = ⟨st.page, true, st.headings⟩ :=
    foldl_fence_skip mid _ rfl hmid
  have hf2 : processLine (⟨st.page, true, st.headings⟩ : ScanState) f2
      = ⟨st.page, false, st.headings⟩ := by
    unfold processLine
    rw [if_pos h2]
    rfl
  rw [List.foldl_append, List.foldl_cons, hf1, List.foldl_append, hmidfold,
    List.foldl_cons, hf2, List.foldl_nil]

/-- C5, witness: a backtick fence opened before a heading line and closed by
a tilde line suppresses that heading; the following heading line is then
recorded normally. -/
theorem c5_witness :
    code_block_rx ("```".toList) = true ∧ code_block_rx ("~~~".toList) = true ∧
    (("```".toList :: ([['#', ' ', 'A']] ++ ["~~~".toList])) ++ [['#', ' ', 'B']]).foldl
        processLine initScan
      = [['#', ' ', 'B']].foldl processLine ⟨none, false, []⟩ :=
  ⟨rfl, rfl,
    c5_fence_suppression ("```".toList) ("~~~".toList) [['#', ' ', 'A']] [['#', ' ', 'B']]
      initScan rfl rfl (by decide) rfl⟩

/-! ### Claim C6 -/

/-- C6: page persistence. (i) For the input `<!--PAGE:3-->`, `# A`,
`<!--PAGE:7-->`, `# B`, heading `A` is recorded with page 3 and heading `B`
with page 7; (ii) for any input none of whose lines matches the page-marker
pattern, every recorded heading has an absent page — in particular the
headings recorded before the first page marker of a larger input, since by
(iii) the headings of a prefix of the input are a prefix of the headings of
the whole input. -/
theorem c6_page_persistence :
    parse_markdown_headings
        ["<!--PAGE:3-->".toList, "# A".toList, "<!--PAGE:7-->".toList, "# B".toList]
      = [HeadingNode.mk ['A'] 1 (some 3) [], HeadingNode.mk ['B'] 1 (some 7) []] ∧
    (∀ lines : List (List Char), (∀ l ∈ lines, page_rx (stripChars l) = none) →
      ∀ h ∈ parse_markdown_headings lines, h.page = none) ∧
    (∀ pre rest : List (List Char), ∃ t,
      parse_markdown_headings (pre ++ rest) = parse_markdown_headings pre ++ t) := by
  refine ⟨rfl, ?_, ?_⟩
  · intro lines hlines h hmem
    have := foldl_scan_invariant
      (fun st => st.page = none ∧ ∀ x ∈ st.headings, x.page = none)
      (fun l => page_rx (stripChars l) = none)
      (fun st l hQ hP => by
        rcases processLine_cases st l with ⟨b, hb⟩ | ⟨ds, hds, _⟩ | ⟨lvl, ti, _, hres⟩
        · rw [hb]
          exact ⟨hP.1, hP.2⟩
        · rw [hQ] at hds
          cases hds
        · rw [hres]
          refine ⟨hP.1, ?_⟩
          intro x hx
          rcases List.mem_append.mp hx with hx | hx
          · exact hP.2 x hx
          · rcases List.mem_singleton.mp hx with rfl
            simpa using hP.1)
      lines initScan hlines ⟨rfl, by intro x hx; simp [initScan] at hx⟩
    exact this.2 h hmem
  · intro pre rest
    unfold parse_markdown_headings
    rw [List.foldl_append]
    exact foldl_headings_mono rest (pre.foldl processLine initScan)

/-- C6, witness: the single heading extracted from the marker-free input
`# A` has an absent page. -/
theorem c6_witness : (HeadingNode.mk ['A'] 1 none []).page = none :=
  c6_page_persistence.2.1 [['#', ' ', 'A']] (by decide) _ (List.mem_singleton.mpr rfl)

/-! ### Claim C1 -/

/-- C1, counterexample: on levels `[1,2,3,2,1]` with titles `[A,B,C,D,E]`,
node `A` has children `[B, D]`, not `[B]` as the claim states (and `B` has
children `[C]`, not `[C, D]`): heading `D` at level 2 pops `C` (3 ≥ 2) and
then `B` itself (2 ≥ 2), so `D` becomes a sibling of `B` under `A`. -/
theorem c1_counterexample :
    ((build_tree_markdown_levels
        [HeadingNode.mk ['A'] 1 none [], HeadingNode.mk ['B'] 2 none [],
         HeadingNode.mk ['C'] 3 none [], HeadingNode.mk ['D'] 2 none [],
         HeadingNode.mk ['E'] 1 none []]).children.map
      (fun c => (c.title, c.children.map HeadingNode.title)))
      = [(['A'], [['B'], ['D']]), (['E'], [])] ∧
    ([['B'], ['D']] : List (List Char)) ≠ [['B']] :=
  ⟨rfl, by decide⟩

/-- C1, amended: for levels `[1,2,3,2,1]` with titles `[A,B,C,D,E]`, the
tree returned by the builder has root.children = [A, E], A.children =
[B, D], and B.children = [C] (D and E are leaves). -/
theorem c1_nesting :
    build_tree_markdown_levels
        [HeadingNode.mk ['A'] 1 none [], HeadingNode.mk ['B'] 2 none [],
         HeadingNode.mk ['C'] 3 none [], HeadingNode.mk ['D'] 2 none [],
         HeadingNode.mk ['E'] 1 none []]
      = HeadingNode.mk ("ROOT".toList) 0 none
          [HeadingNode.mk ['A'] 1 none
            [HeadingNode.mk ['B'] 2 none [HeadingNode.mk ['C'] 3 none []],
             HeadingNode.mk ['D'] 2 none []],
           HeadingNode.mk ['E'] 1 none []] := rfl

/-! ### Claim C2 -/

theorem popPending_levels (l : Nat) :
    ∀ (s : List HeadingNode) (t : HeadingNode) (acc : List HeadingNode),
      ((popPending l t s acc).1).map HeadingNode.level
        = (s.map HeadingNode.level).dropWhile (fun k => l ≤ k) := by
  intro s
  induction s with
  | nil => intro t acc; rfl
  | cons f fs ih =>
    intro t acc
    rw [popPending]
    by_cases h : l ≤ f.level
    · rw [if_pos h, ih, List.map_cons, List.dropWhile_cons_of_pos (by simp [h])]
    · rw [if_neg h]
      simp [List.dropWhile_cons, h]

theorem popStack_levels (l : Nat) (s acc : List HeadingNode) :
    ((popStack l s acc).1).map HeadingNode.level
      = (s.map HeadingNode.level).dropWhile (fun k => l ≤ k) := by
  cases s with
  | nil => rfl
  | cons f fs =>
    show ((if l ≤ f.level then popPending l f fs acc else (f :: fs, acc)).1).map
        HeadingNode.level = _
    by_cases h : l ≤ f.level
    · rw [if_pos h, popPending_levels]
      simp [List.dropWhile_cons, h]
    · rw [if_neg h]
      simp [List.dropWhile_cons, h]

theorem chain_cons_dropWhile (m : Nat) :
    ∀ L : List Nat, List.Chain' (fun a b => b < a) L →
      List.Chain' (fun a b => b < a) (m :: L.dropWhile (fun k => m ≤ k)) := by
  intro L
  induction L with
  | nil => intro _; simp
  | cons a L' ih =>
    intro h
    by_cases hm : m ≤ a
    · rw [List.dropWhile_cons_of_pos (by simp [hm])]
      exact ih h.tail
    · rw [List.dropWhile_cons_of_neg (by simp [hm])]
      exact h.cons (by omega)

/-- The builder's stack invariant: read from top (head) to bottom, the
levels on the stack are strictly decreasing. -/
theorem buildStack_sorted :
    ∀ (hs : List HeadingNode) (st : BuildState),
      List.Chain' (fun a b => b < a) (st.stack.map HeadingNode.level) →
      List.Chain' (fun a b => b < a) (((hs.foldl buildStep st).stack).map HeadingNode.level) := by
  intro hs
  induction hs with
  | nil => intro st h; exact h
  | cons x xs ih =>
    intro st h
    rw [List.foldl_cons]
    refine ih _ ?_
    show List.Chain' _ ((x :: (popStack x.level st.stack st.acc).1).map HeadingNode.level)
    rw [List.map_cons, popStack_levels]
    exact chain_cons_dropWhile x.level _ h

/-- C2, counterexample: after the builder has processed the headings
`[A (level 1), B (level 2)]` (e.g. the state between the second and third
heading of the input `A1, B2, C1`), the ancestor stack read from bottom to
top has levels `[1, 2]`, which is not a monotonically-decreasing sequence.
The claimed invariant fails whenever the stack holds two nodes. -/
theorem c2_counterexample :
    ((([HeadingNode.mk ['A'] 1 none [], HeadingNode.mk ['B'] 2 none []] :
        List HeadingNode).foldl buildStep ⟨[], []⟩).stack.reverse.map HeadingNode.level)
      = [1, 2] ∧
    ¬ List.Pairwise (fun a b : Nat => b ≤ a) [1, 2] :=
  ⟨rfl, by decide⟩

/-- C2, amended: at every step of the builder's loop (i.e. after processing
any list of headings from the initial state — in particular any prefix of
an input), the ancestor stack read from bottom to top is a strictly
INCREASING-by-level sequence (equivalently, strictly decreasing from top to
bottom). -/
theorem c2_stack_monotone (hs : List HeadingNode) :
    List.Pairwise (fun a b => a < b)
      (((hs.foldl buildStep ⟨[], []⟩).stack.reverse).map HeadingNode.level) := by
  have h := buildStack_sorted hs ⟨[], []⟩ (by simp)
  have htr : IsTrans Nat (fun a b => b < a) := ⟨fun a b c h1 h2 => lt_trans h2 h1⟩
  have hp := (@List.chain'_iff_pairwise Nat (fun a b => b < a) htr _).mp h
  rw [List.map_reverse, List.pairwise_reverse]
  exact hp

/-! ### Claim C4: the stack machine refines the declarative nesting -/

theorem popStack_cons_pos (l : Nat) (f : HeadingNode) (fs acc : List HeadingNode)
    (h : l ≤ f.level) : popStack l (f :: fs) acc = popPending l f fs acc := by
  show (if l ≤ f.level then popPending l f fs acc else (f :: fs, acc)) = _
  rw [if_pos h]

theorem popStack_cons_neg (l : Nat) (f : HeadingNode) (fs acc : List HeadingNode)
    (h : ¬ l ≤ f.level) : popStack l (f :: fs) acc = (f :: fs, acc) := by
  show (if l ≤ f.level then popPending l f fs acc else (f :: fs, acc)) = _
  rw [if_neg h]

theorem popPending_cons_pos (l : Nat) (t f : HeadingNode) (fs acc : List HeadingNode)
    (h : l ≤ f.level) :
    popPending l t (f :: fs) acc = popPending l (addChild f t) fs acc := by
  rw [popPending, if_pos h]

theorem popPending_cons_neg (l : Nat) (t f : HeadingNode) (fs acc : List HeadingNode)
    (h : ¬ l ≤ f.level) :
    popPending l t (f :: fs) acc = (addChild f t :: fs, acc) := by
  rw [popPending, if_neg h]

theorem buildStep_no_pop (f : HeadingNode) (fs acc : List HeadingNode) (x : HeadingNode)
    (h : ¬ x.level ≤ f.level) :
    buildStep ⟨f :: fs, acc⟩ x = ⟨x :: f :: fs, acc⟩ := by
  unfold buildStep
  rw [popStack_cons_neg _ _ _ _ h]

theorem buildStep_empty_stack (acc : List HeadingNode) (x : HeadingNode) :
    buildStep ⟨[], acc⟩ x = ⟨[x], acc⟩ := rfl

theorem buildStep_eq (st : BuildState) (x : HeadingNode) :
    buildStep st x
      = ⟨x :: (popStack x.level st.stack st.acc).1, (popStack x.level st.stack st.acc).2⟩ := rfl

/-- Running the builder over headings that all nest strictly below the frame
`f` on top of the stack, and then popping at any level at most `f.level`,
is the same as popping the single node `f` extended with the declarative
forest of those headings: the machine builds exactly the `forest` nesting
underneath the open frame. -/
theorem buildRun_nested :
    ∀ (n : Nat) (hs : List HeadingNode), hs.length ≤ n →
      ∀ (f : HeadingNode) (fs acc : List HeadingNode) (l : Nat),
        l ≤ f.level → (∀ x ∈ hs, f.level < x.level) →
        popStack l ((hs.foldl buildStep ⟨f :: fs, acc⟩).stack)
            ((hs.foldl buildStep ⟨f :: fs, acc⟩).acc)
          = popStack l (addChildren f (forest hs) :: fs) acc := by
  intro n
  induction n with
  | zero =>
    intro hs hlen f fs acc l hl hx
    have h0 : hs = [] := List.eq_nil_of_length_eq_zero (Nat.le_zero.mp hlen)
    subst h0
    rw [show forest [] = [] from by rw [forest], addChildren_nil]
    rfl
  | succ n ih =>
    intro hs hlen f fs acc l hl hx
    cases hs with
    | nil =>
      rw [show forest [] = [] from by rw [forest], addChildren_nil]
      rfl
    | cons x rest =>
      have hfx : f.level < x.level := hx x (List.mem_cons_self x rest)
      have hrestlen : rest.length ≤ n := by
        rw [List.length_cons] at hlen
        omega
      have hinner_mem : ∀ z ∈ rest.takeWhile (fun z => x.level < z.level),
          x.level < z.level := by
        intro z hz
        simpa using List.mem_takeWhile_imp hz
      have hinner_len : (rest.takeWhile (fun z => x.level < z.level)).length ≤ n :=
        le_trans (List.takeWhile_sublist _).length_le hrestlen
      have key := fun (l' : Nat) (hl' : l' ≤ x.level) =>
        ih (rest.takeWhile (fun z => x.level < z.level)) hinner_len x (f :: fs) acc l'
          hl' hinner_mem
      have hstep1 : buildStep ⟨f :: fs, acc⟩ x = ⟨x :: f :: fs, acc⟩ :=
        buildStep_no_pop f fs acc x (by omega)
      rcases hafter : rest.dropWhile (fun z => x.level < z.level) with _ | ⟨y, ys⟩
      · have hrest_eq : rest = rest.takeWhile (fun z => x.level < z.level) := by
          have h := List.takeWhile_append_dropWhile (fun z => decide (x.level < z.level)) rest
          rw [hafter, List.append_nil] at h
          exact h.symm
        rw [List.foldl_cons, hstep1]
        rw [show rest.foldl buildStep (⟨x :: f :: fs, acc⟩ : BuildState)
            = (rest.takeWhile (fun z => x.level < z.level)).foldl buildStep
                (⟨x :: f :: fs, acc⟩ : BuildState) from by rw [← hrest_eq]]
        rw [key l (by omega)]
        rw [popStack_cons_pos _ _ _ _ (by simp; omega)]
        rw [popPending_cons_pos _ _ _ _ _ (by simpa using hl)]
        rw [forest, hafter, show forest [] = [] from by rw [forest]]
        rw [popStack_cons_pos _ _ _ _ (by simpa using hl)]
        rfl
      · have hyx : ¬ (x.level < y.level) := by
          simpa using dropWhile_head_false _ rest y ys hafter
        have hy_rest : y ∈ rest :=
          (List.dropWhile_sublist _).subset (by rw [hafter]; exact List.mem_cons_self y ys)
        have hfy : f.level < y.level := hx y (List.mem_cons_of_mem x hy_rest)
        have hys_mem : ∀ z ∈ y :: ys, f.level < z.level := by
          intro z hz
          refine hx z (List.mem_cons_of_mem x ?_)
          exact (List.dropWhile_sublist _).subset (by rw [hafter]; exact hz)
        have hys_len : (y :: ys).length ≤ n := by
          rw [← hafter]
          exact le_trans (List.dropWhile_sublist _).length_le hrestlen
        have hrest_eq : rest = rest.takeWhile (fun z => x.level < z.level) ++ (y :: ys) := by
          rw [← hafter]
          exact (List.takeWhile_append_dropWhile _ _).symm
        have hstepy : buildStep ((rest.takeWhile (fun z => x.level < z.level)).foldl
              buildStep (⟨x :: f :: fs, acc⟩ : BuildState)) y
            = ⟨y :: addChild f (addChildren x
                (forest (rest.takeWhile (fun z => x.level < z.level)))) :: fs, acc⟩ := by
          rw [buildStep_eq]
          rw [key y.level (by omega)]
          rw [popStack_cons_pos _ _ _ _ (by simp; omega)]
          rw [popPending_cons_neg _ _ _ _ _ (by simp; omega)]
        have hstepy2 : buildStep (⟨addChild f (addChildren x
              (forest (rest.takeWhile (fun z => x.level < z.level)))) :: fs, acc⟩ : BuildState) y
            = ⟨y :: addChild f (addChildren x
                (forest (rest.takeWhile (fun z => x.level < z.level)))) :: fs, acc⟩ :=
          buildStep_no_pop _ _ _ _ (by simp; omega)
        rw [List.foldl_cons, hstep1]
        rw [show rest.foldl buildStep (⟨x :: f :: fs, acc⟩ : BuildState)
            = ((rest.takeWhile (fun z => x.level < z.level)) ++ (y :: ys)).foldl buildStep
                (⟨x :: f :: fs, acc⟩ : BuildState) from by rw [← hrest_eq]]
        rw [List.foldl_append, List.foldl_cons, hstepy, ← hstepy2, ← List.foldl_cons]
        rw [ih (y :: ys) hys_len _ fs acc l (by simpa using hl)
          (by intro z hz; simpa using hys_mem z hz)]
        have hforest : forest (x :: rest)
            = addChildren x (forest (rest.takeWhile (fun z => x.level < z.level)))
              :: forest (y :: ys) := by
          rw [forest, hafter]
          rfl
        rw [hforest]
        rw [show addChildren f (addChildren x
              (forest (rest.takeWhile (fun z => x.level < z.level))) :: forest (y :: ys))
            = addChildren (addChild f (addChildren x
                (forest (rest.takeWhile (fun z => x.level < z.level))))) (forest (y :: ys)) from
          addChildren_append f [addChildren x
            (forest (rest.takeWhile (fun z => x.level < z.level)))] (forest (y :: ys))]

/-- Running the builder from an empty stack and closing everything at the
end yields exactly `acc ++ forest hs`. -/
theorem runFromRoot :
    ∀ (n : Nat) (hs : List HeadingNode), hs.length ≤ n → ∀ acc : List HeadingNode,
      (popStack 0 ((hs.foldl buildStep ⟨[], acc⟩).stack)
          ((hs.foldl buildStep ⟨[], acc⟩).acc)).2
        = acc ++ forest hs := by
  intro n
  induction n with
  | zero =>
    intro hs hlen acc
    have h0 : hs = [] := List.eq_nil_of_length_eq_zero (Nat.le_zero.mp hlen)
    subst h0
    rw [show forest [] = [] from by rw [forest], List.append_nil]
    rfl
  | succ n ih =>
    intro hs hlen acc
    cases hs with
    | nil =>
      rw [show forest [] = [] from by rw [forest], List.append_nil]
      rfl
    | cons x rest =>
      have hrestlen : rest.length ≤ n := by
        rw [List.length_cons] at hlen
        omega
      have hinner_mem : ∀ z ∈ rest.takeWhile (fun z => x.level < z.level),
          x.level < z.level := by
        intro z hz
        simpa using List.mem_takeWhile_imp hz
      have key := fun (l' : Nat) (hl' : l' ≤ x.level) =>
        buildRun_nested (rest.takeWhile (fun z => x.level < z.level)).length
          (rest.takeWhile (fun z => x.level < z.level)) le_rfl x [] acc l' hl' hinner_mem
      rcases hafter : rest.dropWhile (fun z => x.level < z.level) with _ | ⟨y, ys⟩
      · have hrest_eq : rest = rest.takeWhile (fun z => x.level < z.level) := by
          have h := List.takeWhile_append_dropWhile (fun z => decide (x.level < z.level)) rest
          rw [hafter, List.append_nil] at h
          exact h.symm
        rw [List.foldl_cons, buildStep_empty_stack]
        rw [show rest.foldl buildStep (⟨[x], acc⟩ : BuildState)
            = (rest.takeWhile (fun z => x.level < z.level)).foldl buildStep
                (⟨[x], acc⟩ : BuildState) from by rw [← hrest_eq]]
        rw [key 0 (Nat.zero_le _)]
        rw [popStack_cons_pos _ _ _ _ (Nat.zero_le _)]
        rw [forest, hafter, show forest [] = [] from by rw [forest]]
        rfl
      · have hyx : ¬ (x.level < y.level) := by
          simpa using dropWhile_head_false _ rest y ys hafter
        have hys_len : (y :: ys).length ≤ n := by
          rw [← hafter]
          exact le_trans (List.dropWhile_sublist _).length_le hrestlen
        have hrest_eq : rest = rest.takeWhile (fun z => x.level < z.level) ++ (y :: ys) := by
          rw [← hafter]
          exact (List.takeWhile_append_dropWhile _ _).symm
        have hstepy : buildStep ((rest.takeWhile (fun z => x.level < z.level)).foldl
              buildStep (⟨[x], acc⟩ : BuildState)) y
            = ⟨[y], acc ++ [addChildren x
                (forest (rest.takeWhile (fun z => x.level < z.level)))]⟩ := by
          rw [buildStep_eq]
          rw [key y.level (by omega)]
          rw [popStack_cons_pos _ _ _ _ (by simp; omega)]
          rfl
        have hstepy2 : buildStep (⟨[], acc ++ [addChildren x
              (forest (rest.takeWhile (fun z => x.level < z.level)))]⟩ : BuildState) y
            = ⟨[y], acc ++ [addChildren x
                (forest (rest.takeWhile (fun z => x.level < z.level)))]⟩ :=
          buildStep_empty_stack _ _
        rw [List.foldl_cons, buildStep_empty_stack]
        rw [show rest.foldl buildStep (⟨[x], acc⟩ : BuildState)
            = ((rest.takeWhile (fun z => x.level < z.level)) ++ (y :: ys)).foldl buildStep
                (⟨[x], acc⟩ : BuildState) from by rw [← hrest_eq]]
        rw [List.foldl_append, List.foldl_cons, hstepy, ← hstepy2, ← List.foldl_cons]
        rw [ih (y :: ys) hys_len _]
        conv_rhs => rw [forest, hafter]
        rw [List.append_assoc]
        rfl

/-- The stack machine computes the declarative nesting: the builder's output
equals `buildSpec` on every input. -/
theorem build_eq_spec (hs : List HeadingNode) :
    build_tree_markdown_levels hs = buildSpec hs := by
  have h := runFromRoot hs.length hs le_rfl []
  rw [List.nil_append] at h
  show HeadingNode.mk ("ROOT".toList) 0 none
      (popStack 0 ((hs.foldl buildStep ⟨[], []⟩).stack) ((hs.foldl buildStep ⟨[], []⟩).acc)).2
    = _
  rw [h]
  rfl

/-- Every tree in the forest of a flat heading list whose levels all exceed
`lo` has root level above `lo` and strictly increasing levels along every
edge. -/
theorem forest_strict :
    ∀ (n : Nat) (hs : List HeadingNode), hs.length ≤ n → ∀ lo : Nat,
      (∀ x ∈ hs, lo < x.level) → (∀ x ∈ hs, x.children = []) →
      ∀ t ∈ forest hs, lo < t.level ∧ StrictLevels t := by
  intro n
  induction n with
  | zero =>
    intro hs hlen lo _ _ t ht
    have h0 : hs = [] := List.eq_nil_of_length_eq_zero (Nat.le_zero.mp hlen)
    subst h0
    rw [show forest [] = [] from by rw [forest]] at ht
    simp at ht
  | succ n ih =>
    intro hs hlen lo hlo hflat t ht
    cases hs with
    | nil =>
      rw [show forest [] = [] from by rw [forest]] at ht
      simp at ht
    | cons x rest =>
      have hrestlen : rest.length ≤ n := by
        rw [List.length_cons] at hlen
        omega
      rw [forest] at ht
      rcases List.mem_cons.mp ht with rfl | ht'
      · refine ⟨by simpa using hlo x (List.mem_cons_self x rest), ?_⟩
        rw [hflat x (List.mem_cons_self x rest), List.nil_append]
        refine StrictLevels.node _ _ _ _ ?_ ?_
        · intro c hc
          refine (ih (rest.takeWhile (fun z => x.level < z.level))
            (le_trans (List.takeWhile_sublist _).length_le hrestlen) x.level
            (fun z hz => by simpa using List.mem_takeWhile_imp hz)
            (fun z hz => hflat z (List.mem_cons_of_mem x
              ((List.takeWhile_sublist _).subset hz))) c hc).1
        · intro c hc
          exact (ih (rest.takeWhile (fun z => x.level < z.level))
            (le_trans (List.takeWhile_sublist _).length_le hrestlen) x.level
            (fun z hz => by simpa using List.mem_takeWhile_imp hz)
            (fun z hz => hflat z (List.mem_cons_of_mem x
              ((List.takeWhile_sublist _).subset hz))) c hc).2
      · exact ih (rest.dropWhile (fun z => x.level < z.level))
          (le_trans (List.dropWhile_sublist _).length_le hrestlen) lo
          (fun z hz => hlo z (List.mem_cons_of_mem x ((List.dropWhile_sublist _).subset hz)))
          (fun z hz => hflat z (List.mem_cons_of_mem x ((List.dropWhile_sublist _).subset hz)))
          t ht'

/-! ### Claim C4 -/

/-- C4: for every flat heading sequence (records with empty `children` and
levels in the valid range, i.e. at least 1, as produced by the extractor),
the builder's output coincides with the declarative specification
`buildSpec`, under which each heading is a child of the nearest preceding
heading of strictly smaller level (or of the root when none exists; level
jumps included, and the model is total so no error is raised); and
consequently every non-root node's level is strictly greater than its
parent's level, the root having level 0. -/
theorem c4_nearest_smaller_parent (hs : List HeadingNode)
    (hlev : ∀ x ∈ hs, 1 ≤ x.level) (hflat : ∀ x ∈ hs, x.children = []) :
    build_tree_markdown_levels hs = buildSpec hs ∧
    StrictLevels (build_tree_markdown_levels hs) := by
  refine ⟨build_eq_spec hs, ?_⟩
  rw [build_eq_spec hs]
  unfold buildSpec
  refine StrictLevels.node _ _ _ _ ?_ ?_
  · intro c hc
    exact (forest_strict hs.length hs le_rfl 0 (fun x hx => hlev x hx) hflat c hc).1
  · intro c hc
    exact (forest_strict hs.length hs le_rfl 0 (fun x hx => hlev x hx) hflat c hc).2

/-- C4, witness at the level-jump input `[A (level 1), B (level 3)]`. -/
theorem c4_witness :
    (∀ x ∈ ([HeadingNode.mk ['A'] 1 none [], HeadingNode.mk ['B'] 3 none []] :
        List HeadingNode), 1 ≤ x.level) ∧
    (build_tree_markdown_levels
          [HeadingNode.mk ['A'] 1 none [], HeadingNode.mk ['B'] 3 none []]
        = buildSpec [HeadingNode.mk ['A'] 1 none [], HeadingNode.mk ['B'] 3 none []] ∧
      StrictLevels (build_tree_markdown_levels
          [HeadingNode.mk ['A'] 1 none [], HeadingNode.mk ['B'] 3 none []])) :=
  ⟨by decide, c4_nearest_smaller_parent _ (by decide) (by simp)⟩
